import Mathlib

/-
Verification of the `blooms` Bloom-filter library (src/blooms/blooms.py)
against its natural-language specification.

A filter is embedded as a `List Nat` of byte cells (the `bytearray`
contents; every cell is an unsigned 8-bit value, so `< 256`).  Member
values (Python bytes-like objects) are embedded as `List Nat` of bytes.

Zero-length filters are excluded by an explicit `0 < f.length`
hypothesis wherever insertion or query touches a cell: on a zero-length
`bytearray` the source raises `ZeroDivisionError` at `index_byte %
len(self)` before any cell is read or written, so the operations are
only defined on nonempty buffers.
-/

namespace Blooms

/-- `int.from_bytes(bs, 'little')`: little-endian interpretation of a
byte list as an unsigned integer. -/
def fromLittleEndian : List Nat → Nat
  | [] => 0
  | b :: rest => b + 256 * fromLittleEndian rest

/-- The chunk indices derived from a value, as computed by the loop
`for i in range(0, len(bs), 4): index = int.from_bytes(bs[i:i+4], 'little')`
shared by `__imatmul__` (insert) and `__rmatmul__` (query): the value is
consumed in non-overlapping 4-byte chunks, left to right, a shorter
final chunk read with only its available bytes. -/
def chunkIndexes : List Nat → List Nat
  | [] => []
  | a :: b :: c :: d :: rest =>
      (a + 256 * b + 65536 * c + 16777216 * d) :: chunkIndexes rest
  | [a] => [a]
  | [a, b] => [a + 256 * b]
  | [a, b, c] => [a + 256 * b + 65536 * c]

/-- One step of `__imatmul__`:
`(index_byte, index_bit) = (index // 8, index % 8)` followed by
`self[index_byte % len(self)] |= 2**index_bit`. -/
def setBitAt (f : List Nat) (index : Nat) : List Nat :=
  f.set (index / 8 % f.length) (f.getD (index / 8 % f.length) 0 ||| 2 ^ (index % 8))

/-- `__imatmul__` restricted to a single bytes-like object `bs`:
set the bit derived from every 4-byte chunk of `bs`. -/
def insertBytes (f : List Nat) (bs : List Nat) : List Nat :=
  (chunkIndexes bs).foldl setBitAt f

/-- `__imatmul__` on an iterable of bytes-like objects, each inserted in
order. -/
def insertMany (f : List Nat) (vs : List (List Nat)) : List Nat :=
  vs.foldl insertBytes f

/-- `__rmatmul__` (membership query): true iff for every chunk-derived
index, `(self[index_byte % len(self)] >> index_bit) % 2 == 1`. -/
def queryBytes (f : List Nat) (bs : List Nat) : Bool :=
  (chunkIndexes bs).all fun index =>
    (f.getD (index / 8 % f.length) 0 >>> (index % 8)) % 2 == 1

/-- An element of an iterable passed to `__imatmul__`: either a
bytes-like object or something that is not bytes-like (processing the
latter raises a `TypeError` when it is reached). -/
inductive PyElem : Type
  | bytesLike (bs : List Nat) : PyElem
  | nonBytes : PyElem
deriving DecidableEq

/-- The argument of `__imatmul__`: a single bytes-like object, an
iterable of elements, or a non-iterable object (e.g. the integer `123`
of the doctest). -/
inductive PyArg : Type
  | bytesLike (bs : List Nat) : PyArg
  | iterable (es : List PyElem) : PyArg
  | nonIterable : PyArg
deriving DecidableEq

/-- The `for bs in bss` loop of `__imatmul__` over an iterable: each
bytes-like element is inserted in turn; reaching a non-bytes-like
element raises (`Except.error`), carrying the cells as mutated so far. -/
def processIter (f : List Nat) : List PyElem → Except (List Nat) (List Nat)
  | [] => .ok f
  | .bytesLike bs :: rest => processIter (insertBytes f bs) rest
  | .nonBytes :: _ => .error f

/-- `__imatmul__` in full: a non-iterable argument raises `TypeError`
immediately (`Except.error` with the cells untouched); a bytes-like
argument is inserted as a singleton; an iterable is processed
element-wise. -/
def imatmul (f : List Nat) : PyArg → Except (List Nat) (List Nat)
  | .bytesLike bs => .ok (insertBytes f bs)
  | .iterable es => processIter f es
  | .nonIterable => .error f

/-- `__or__` (union): `ValueError` (`none`) on unequal lengths,
otherwise the cell-wise bitwise OR
`blooms([s | o for (s, o) in zip(self, other)])`. -/
def unionFilter (a b : List Nat) : Option (List Nat) :=
  if a.length = b.length then some ((a.zip b).map fun p => p.1 ||| p.2) else none

/-- `issubset`: `ValueError` (`none`) on unequal lengths, otherwise
`all(x <= y for (x, y) in zip(self, other))` — a numeric comparison of
cell values. -/
def issubset (a b : List Nat) : Option Bool :=
  if a.length = b.length then some ((a.zip b).all fun p => p.1 ≤ p.2) else none

/-- Modelled from the spec: the external Base64 codec (`base64.
standard_b64encode`, an external collaborator whose source is not part
of this repository) — the RFC 4648 standard alphabet, mapping a sextet
to its character code (`=` is 61). -/
def c6 (s : Nat) : Nat :=
  if s < 26 then 65 + s
  else if s < 52 then 71 + s
  else if s < 62 then s - 4
  else if s = 62 then 43 else 47

/-- Modelled from the spec: inverse alphabet of the external Base64
codec, mapping a character code back to its sextet. -/
def d6 (c : Nat) : Nat :=
  if 65 ≤ c ∧ c ≤ 90 then c - 65
  else if 97 ≤ c ∧ c ≤ 122 then c - 71
  else if 48 ≤ c ∧ c ≤ 57 then c + 4
  else if c = 43 then 62
  else if c = 47 then 63 else 0

/-- Modelled from the spec: `base64.standard_b64encode` on a byte
sequence — each 3-byte group becomes 4 alphabet characters, a final
1- or 2-byte group is padded with `=` (code 61). -/
def b64encode : List Nat → List Nat
  | [] => []
  | a :: b :: c :: rest =>
      c6 (a / 4) :: c6 (a % 4 * 16 + b / 16) :: c6 (b % 16 * 4 + c / 64) ::
        c6 (c % 64) :: b64encode rest
  | [a] => [c6 (a / 4), c6 (a % 4 * 16), 61, 61]
  | [a, b] => [c6 (a / 4), c6 (a % 4 * 16 + b / 16), c6 (b % 16 * 4), 61]

/-- Modelled from the spec: `base64.standard_b64decode` — each 4-character
group yields 3 bytes, or fewer when `=` padding is present. -/
def b64decode : List Nat → List Nat
  | w :: x :: y :: z :: rest =>
      if y = 61 then [d6 w * 4 + d6 x / 16]
      else if z = 61 then [d6 w * 4 + d6 x / 16, d6 x % 16 * 16 + d6 y / 4]
      else (d6 w * 4 + d6 x / 16) :: (d6 x % 16 * 16 + d6 y / 4) ::
        (d6 y % 4 * 64 + d6 z) :: b64decode rest
  | _ => []

/-- `to_base64`: encode the cells with the external codec (the result
string is embedded as its list of character codes). -/
def to_base64 (f : List Nat) : List Nat := b64encode f

/-- `from_base64`: build an instance whose cells are exactly the decoded
bytes (`ba.extend(base64.standard_b64decode(s))` on a fresh instance). -/
def from_base64 (s : List Nat) : List Nat := b64decode s

/-- The spec's description of index derivation, written from §4.1 of the
specification for comparison with the code: a value of length `L`
contributes the `ceil(L/4)` positions obtained by slicing `v` at
offsets `4j`, reading up to 4 bytes little-endian into `index`, and
addressing bit `index mod 8` of cell `(index div 8) mod capacity`. -/
def specPositions (m : Nat) (v : List Nat) : List (Nat × Nat) :=
  (List.range ((v.length + 3) / 4)).map fun j =>
    (fromLittleEndian ((v.drop (4 * j)).take 4) / 8 % m,
     fromLittleEndian ((v.drop (4 * j)).take 4) % 8)

/-! ### Helper lemmas -/

theorem length_setBitAt (f : List Nat) (i : Nat) : (setBitAt f i).length = f.length :=
  List.length_set f _ _

theorem length_foldl_setBitAt (l : List Nat) (f : List Nat) :
    (l.foldl setBitAt f).length = f.length := by
  induction l generalizing f with
  | nil => rfl
  | cons a t ih => rw [List.foldl_cons, ih, length_setBitAt]

theorem length_insertBytes (f bs : List Nat) : (insertBytes f bs).length = f.length :=
  length_foldl_setBitAt _ _

theorem length_insertMany (f : List Nat) (vs : List (List Nat)) :
    (insertMany f vs).length = f.length := by
  induction vs generalizing f with
  | nil => rfl
  | cons w t ih =>
    show (insertMany (insertBytes f w) t).length = f.length
    rw [ih, length_insertBytes]

theorem getD_set_self (l : List Nat) (i x : Nat) (h : i < l.length) :
    (l.set i x).getD i 0 = x := by
  rw [List.getD_eq_getElem?_getD, List.getElem?_set_self h]
  rfl

theorem getD_set_ne (l : List Nat) (i j x : Nat) (h : i ≠ j) :
    (l.set i x).getD j 0 = l.getD j 0 := by
  rw [List.getD_eq_getElem?_getD, List.getElem?_set_ne h, ← List.getD_eq_getElem?_getD]

theorem beq_shiftRight_eq_testBit (x n : Nat) :
    ((x >>> n) % 2 == 1) = x.testBit n := by
  rw [Nat.testBit_to_div_mod, Nat.shiftRight_eq_div_pow]
  rcases Nat.mod_two_eq_zero_or_one (x / 2 ^ n) with h | h <;> rw [h] <;> rfl

theorem testBit_getD_setBitAt (f : List Nat) (i j b : Nat)
    (h : (f.getD j 0).testBit b = true) :
    ((setBitAt f i).getD j 0).testBit b = true := by
  unfold setBitAt
  by_cases hkj : i / 8 % f.length = j
  · rcases Nat.lt_or_ge (i / 8 % f.length) f.length with hlt | hge
    · rw [← hkj] at h ⊢
      rw [getD_set_self _ _ _ hlt, Nat.testBit_or, h, Bool.true_or]
    · rw [List.set_eq_of_length_le hge]
      exact h
  · rw [getD_set_ne _ _ _ _ hkj]
    exact h

theorem testBit_getD_setBitAt_self (f : List Nat) (i : Nat) (hf : 0 < f.length) :
    ((setBitAt f i).getD (i / 8 % f.length) 0).testBit (i % 8) = true := by
  unfold setBitAt
  rw [getD_set_self _ _ _ (Nat.mod_lt _ hf), Nat.testBit_or, Nat.testBit_two_pow_self,
    Bool.or_true]

theorem testBit_getD_foldl (l : List Nat) (f : List Nat) (j b : Nat)
    (h : (f.getD j 0).testBit b = true) :
    ((l.foldl setBitAt f).getD j 0).testBit b = true := by
  induction l generalizing f with
  | nil => exact h
  | cons a t ih => exact ih _ (testBit_getD_setBitAt f a j b h)

theorem testBit_getD_foldl_mem (l : List Nat) (f : List Nat) (i : Nat)
    (hf : 0 < f.length) (hi : i ∈ l) :
    ((l.foldl setBitAt f).getD (i / 8 % f.length) 0).testBit (i % 8) = true := by
  induction l generalizing f with
  | nil => cases hi
  | cons a t ih =>
    rw [List.foldl_cons]
    rcases List.mem_cons.mp hi with rfl | hmem
    · exact testBit_getD_foldl t _ _ _ (testBit_getD_setBitAt_self f i hf)
    · have := ih (setBitAt f a) (by rw [length_setBitAt]; exact hf) hmem
      rwa [length_setBitAt] at this


theorem queryBytes_eq_true_iff (f bs : List Nat) :
    queryBytes f bs = true ↔
      ∀ i ∈ chunkIndexes bs, (f.getD (i / 8 % f.length) 0).testBit (i % 8) = true := by
  unfold queryBytes
  rw [List.all_eq_true]
  constructor <;> intro h i hi <;> have hx := h i hi
  · rwa [beq_shiftRight_eq_testBit] at hx
  · rwa [beq_shiftRight_eq_testBit]

theorem testBit_getD_insertMany (g : List Nat) (vs : List (List Nat)) (j b : Nat)
    (h : (g.getD j 0).testBit b = true) :
    ((insertMany g vs).getD j 0).testBit b = true := by
  induction vs generalizing g with
  | nil => exact h
  | cons w t ih => exact ih _ (testBit_getD_foldl (chunkIndexes w) g j b h)

/-- C1: for every filter `f` and every bytes-like value `v`, if `v` was
inserted into `f` — i.e. the current state is `insertBytes f v` followed
by any further insertions `vs`, no unrelated reset — then querying for
`v` returns true (no false negatives).  The `0 < f.length` hypothesis
reflects that insertion into a zero-length buffer raises
`ZeroDivisionError` in the source, so `v` can only ever have been
inserted into a nonempty filter. -/
theorem no_false_negatives (f v : List Nat) (vs : List (List Nat)) (hf : 0 < f.length) :
    queryBytes (insertMany (insertBytes f v) vs) v = true := by
  rw [queryBytes_eq_true_iff]
  intro i hi
  rw [length_insertMany, length_insertBytes]
  exact testBit_getD_insertMany (insertBytes f v) vs _ _
    (testBit_getD_foldl_mem (chunkIndexes v) f i hf hi)

/-- Witness for C1: inserting `[1, 2, 3]` into a fresh 100-byte filter and
then inserting `[4, 5, 6]` leaves `[1, 2, 3]` accepted. -/
theorem no_false_negatives_witness :
    queryBytes (insertMany (insertBytes (List.replicate 100 0) [1, 2, 3]) [[4, 5, 6]])
      [1, 2, 3] = true :=
  no_false_negatives (List.replicate 100 0) [1, 2, 3] [[4, 5, 6]] (by decide)

/-- C2 (code bug): `issubset` compares cells with the numeric order
`x <= y`, not bitwise containment, contradicting both the specification
and the method's own docstring (subset inclusion over the accepted
sets).  At `a = blooms([1])`, `b = blooms([2])` the code answers `true`
although bit 0 is set in `a`'s cell and clear in `b`'s — and indeed the
4-byte value `00 00 00 00` is accepted by `a` but rejected by `b`, so
`a`'s accepted set is not contained in `b`'s. -/
theorem issubset_numeric_divergence :
    issubset [1] [2] = some true ∧
      Nat.testBit 1 0 = true ∧ Nat.testBit 2 0 = false ∧
      queryBytes [1] [0, 0, 0, 0] = true ∧ queryBytes [2] [0, 0, 0, 0] = false := by
  refine ⟨by decide, by decide, by decide, by decide, by decide⟩

theorem processIter_append_bad (f : List Nat) (bss : List (List Nat)) (rest : List PyElem) :
    processIter f (bss.map PyElem.bytesLike ++ PyElem.nonBytes :: rest) =
      .error (insertMany f bss) := by
  induction bss generalizing f with
  | nil => rfl
  | cons w t ih => exact ih (insertBytes f w)

theorem processIter_all_ok (f : List Nat) (bss : List (List Nat)) :
    processIter f (bss.map PyElem.bytesLike) = .ok (insertMany f bss) := by
  induction bss generalizing f with
  | nil => rfl
  | cons w t ih => exact ih (insertBytes f w)

/-- Counterexample to C3: inserting the iterable
`[bytes([1]), 123]` into `blooms([0])` raises only when the
non-bytes-like element `123` is reached, after the first element has
already mutated the cells from `[0]` to `[2]` — a failed call with
partial mutation. -/
theorem insert_partial_mutation_cex :
    imatmul [0] (.iterable [.bytesLike [1], .nonBytes]) = .error [2] ∧
      ([2] : List Nat) ≠ [0] :=
  ⟨rfl, by decide⟩

/-- C3 as amended: a non-iterable argument fails with `TypeError` before
any mutation (the error state is the untouched filter); an iterable
whose elements are bytes-like up to a first non-bytes-like element
fails with the error only when that element is reached, the cells then
holding the insertions of every preceding element (partial mutation);
an all-bytes-like iterable succeeds, inserting every element in order. -/
theorem insert_failure_semantics (f : List Nat) (_hf : 0 < f.length)
    (bss : List (List Nat)) (rest : List PyElem) :
    imatmul f .nonIterable = .error f ∧
      imatmul f (.iterable (bss.map PyElem.bytesLike ++ PyElem.nonBytes :: rest)) =
        .error (insertMany f bss) ∧
      imatmul f (.iterable (bss.map PyElem.bytesLike)) = .ok (insertMany f bss) :=
  ⟨rfl, processIter_append_bad f bss rest, processIter_all_ok f bss⟩

/-- Witness for C3 (amended), at `f = [0]`, one valid element `[1]`
before the bad one. -/
theorem insert_failure_semantics_witness :
    imatmul [0] PyArg.nonIterable = .error [0] ∧
      imatmul [0] (.iterable ([[1]].map PyElem.bytesLike ++ PyElem.nonBytes :: [])) =
        .error (insertMany [0] [[1]]) ∧
      imatmul [0] (.iterable ([[1]].map PyElem.bytesLike)) = .ok (insertMany [0] [[1]]) :=
  insert_failure_semantics [0] (by decide) [[1]] []

theorem union_getD (a b : List Nat) (k : Nat) (hlen : a.length = b.length)
    (hk : k < a.length) :
    ((a.zip b).map fun p => p.1 ||| p.2).getD k 0 = a.getD k 0 ||| b.getD k 0 := by
  have hz : k < (a.zip b).length := by
    rw [List.length_zip, hlen, Nat.min_self, ← hlen]
    exact hk
  have hm : k < ((a.zip b).map fun p => p.1 ||| p.2).length := by
    rwa [List.length_map]
  rw [List.getD_eq_getElem _ _ hm, List.getD_eq_getElem _ _ hk,
    List.getD_eq_getElem _ _ (hlen ▸ hk), List.getElem_map, List.getElem_zip]

/-- C4: union never produces a false negative relative to either
operand — if a value is accepted by `a` or by `b` (equal, positive
lengths), it is accepted by `a | b`. -/
theorem union_no_false_negative (a b v : List Nat) (hlen : a.length = b.length)
    (hpos : 0 < a.length)
    (h : queryBytes a v = true ∨ queryBytes b v = true) :
    ∃ u, unionFilter a b = some u ∧ queryBytes u v = true := by
  refine ⟨(a.zip b).map fun p => p.1 ||| p.2, by rw [unionFilter, if_pos hlen], ?_⟩
  have hu : ((a.zip b).map fun p => p.1 ||| p.2).length = a.length := by
    rw [List.length_map, List.length_zip, hlen, Nat.min_self]
  rw [queryBytes_eq_true_iff]
  intro i hi
  rw [hu, union_getD a b _ hlen (Nat.mod_lt _ hpos), Nat.testBit_or]
  rcases h with hq | hq
  · rw [queryBytes_eq_true_iff] at hq
    rw [hq i hi, Bool.true_or]
  · rw [queryBytes_eq_true_iff] at hq
    have hq2 := hq i hi
    rw [← hlen] at hq2
    rw [hq2, Bool.or_true]

/-- Witness for C4: `[2] | [0] = [2]` accepts `[1]`, accepted by the
left operand. -/
theorem union_no_false_negative_witness :
    ∃ u, unionFilter [2] [0] = some u ∧ queryBytes u [1] = true :=
  union_no_false_negative [2] [0] [1] rfl (by decide) (Or.inl (by decide))

/-- C5: on filters of differing byte length, union and subset both fail
with `ValueError` (`none`): no truncation, no padding, no result — and
both operations are reads, the source raising before the new instance
for the union is even built, so neither operand is modified. -/
theorem length_mismatch_guard (a b : List Nat) (h : a.length ≠ b.length) :
    unionFilter a b = none ∧ issubset a b = none := by
  rw [unionFilter, issubset, if_neg h, if_neg h]
  exact ⟨rfl, rfl⟩

/-- Witness for C5, at lengths 1 and 2. -/
theorem length_mismatch_guard_witness :
    unionFilter [0] [0, 0] = none ∧ issubset [0] [0, 0] = none :=
  length_mismatch_guard [0] [0, 0] (by decide)

/-- Counterexample to C6: the claim quantifies over *every* value, but
querying a fresh 100-byte filter for the empty value returns true — the
chunk loop of `__rmatmul__` runs zero times and the default `True` is
returned. -/
theorem fresh_filter_accepts_empty_value :
    queryBytes (List.replicate 100 0) [] = true := by decide

theorem getD_replicate_zero (n i : Nat) :
    (List.replicate n (0 : Nat)).getD i 0 = 0 := by
  rcases Nat.lt_or_ge i n with h | h
  · rw [List.getD_eq_getElem _ _ (by rwa [List.length_replicate])]
    exact List.getElem_replicate _ _
  · exact List.getD_eq_default _ _ (by rwa [List.length_replicate])

/-- C6 as amended: a freshly constructed 100-byte zero-filled filter
rejects every *nonempty* value (the empty value is vacuously accepted,
as its chunk loop tests no bit). -/
theorem fresh_filter_rejects (v : List Nat) (hv : v ≠ []) :
    queryBytes (List.replicate 100 0) v = false := by
  obtain ⟨c, rest, hcr⟩ : ∃ c rest, chunkIndexes v = c :: rest := by
    rcases v with _ | ⟨a, _ | ⟨b, _ | ⟨c, _ | ⟨d, t⟩⟩⟩⟩
    · exact absurd rfl hv
    all_goals exact ⟨_, _, rfl⟩
  unfold queryBytes
  rw [hcr]
  simp only [List.all_cons, getD_replicate_zero, Nat.zero_shiftRight, Nat.zero_mod]
  rfl

/-- Witness for C6 (amended): the spec's own example value `[1, 2, 3]`
is rejected by the fresh filter. -/
theorem fresh_filter_rejects_witness :
    queryBytes (List.replicate 100 0) [1, 2, 3] = false :=
  fresh_filter_rejects [1, 2, 3] (by decide)

/-- C8: `issubset` is reflexive, and on equal-length filters it is
antisymmetric — mutual subsets have identical cell contents. -/
theorem issubset_refl_antisymm (a b : List Nat) (hlen : a.length = b.length) :
    issubset a a = some true ∧
      (issubset a b = some true → issubset b a = some true → a = b) := by
  constructor
  · rw [issubset, if_pos rfl]
    congr 1
    rw [List.all_eq_true]
    intro p hp
    obtain ⟨n, hn, hget⟩ := List.mem_iff_getElem.mp hp
    rw [List.getElem_zip] at hget
    rw [← hget]
    exact decide_eq_true (Nat.le_refl _)
  · intro h1 h2
    rw [issubset, if_pos hlen] at h1
    rw [issubset, if_pos hlen.symm] at h2
    have h1' := List.all_eq_true.mp (Option.some.inj h1)
    have h2' := List.all_eq_true.mp (Option.some.inj h2)
    refine List.ext_getElem hlen fun i hi1 hi2 => ?_
    have hza : i < (a.zip b).length := by
      rw [List.length_zip, hlen, Nat.min_self]
      exact hi2
    have hzb : i < (b.zip a).length := by
      rw [List.length_zip, hlen, Nat.min_self]
      exact hi2
    have ha := h1' _ (List.mem_iff_getElem.mpr ⟨i, hza, rfl⟩)
    have hb := h2' _ (List.mem_iff_getElem.mpr ⟨i, hzb, rfl⟩)
    rw [List.getElem_zip] at ha hb
    exact Nat.le_antisymm (of_decide_eq_true ha) (of_decide_eq_true hb)

/-- Witness for C8, at `a = b = [1, 3]`. -/
theorem issubset_refl_antisymm_witness :
    issubset [1, 3] [1, 3] = some true ∧ ([1, 3] : List Nat) = [1, 3] :=
  ⟨(issubset_refl_antisymm [1, 3] [1, 3] rfl).1,
   (issubset_refl_antisymm [1, 3] [1, 3] rfl).2 (by decide) (by decide)⟩

theorem chunkIndexes_eq_spec (v : List Nat) :
    chunkIndexes v = (List.range ((v.length + 3) / 4)).map
      (fun j => fromLittleEndian ((v.drop (4 * j)).take 4)) := by
  induction v using chunkIndexes.induct with
  | case1 => rfl
  | case2 a b c d rest ih =>
    have h4 : ((a :: b :: c :: d :: rest).length + 3) / 4 = (rest.length + 3) / 4 + 1 := by
      simp only [List.length_cons]
      omega
    rw [chunkIndexes, h4, List.range_succ_eq_map, List.map_cons, List.map_map]
    congr 1
    show a + 256 * b + 65536 * c + 16777216 * d =
      a + 256 * (b + 256 * (c + 256 * (d + 256 * 0)))
    ring
  | case3 a =>
    have h : (([a] : List Nat).length + 3) / 4 = 1 := by simp
    rw [h]
    rfl
  | case4 a b =>
    have h : (([a, b] : List Nat).length + 3) / 4 = 1 := by simp
    rw [h]
    rfl
  | case5 a b c =>
    have h : (([a, b, c] : List Nat).length + 3) / 4 = 1 := by simp
    rw [h]
    show [a + 256 * b + 65536 * c] = [a + 256 * (b + 256 * (c + 256 * 0))]
    rw [show a + 256 * (b + 256 * (c + 256 * 0)) = a + 256 * b + 65536 * c from by ring]

theorem all_map_general {α β : Type} (f : α → β) (l : List α) (p : β → Bool) :
    (l.map f).all p = l.all (p ∘ f) := by
  induction l with
  | nil => rfl
  | cons a t ih =>
    rw [List.map_cons, List.all_cons, List.all_cons, ih]
    rfl

theorem foldl_setBitAt_fixed (m : Nat) (l : List Nat) :
    ∀ g : List Nat, g.length = m →
      l.foldl setBitAt g =
        l.foldl (fun g i => g.set (i / 8 % m) (g.getD (i / 8 % m) 0 ||| 2 ^ (i % 8))) g := by
  induction l with
  | nil => intro g hg; rfl
  | cons a t ih =>
    intro g hg
    rw [List.foldl_cons, List.foldl_cons]
    have hstep : setBitAt g a = g.set (a / 8 % m) (g.getD (a / 8 % m) 0 ||| 2 ^ (a % 8)) := by
      rw [setBitAt, hg]
    rw [← hstep]
    exact ih (setBitAt g a) (by rw [length_setBitAt, hg])

/-- C7: the index derivation shared by insert and query matches the
spec's closed form — a value `v` yields exactly `ceil(len(v)/4)`
positions; the `j`-th chunk index is the little-endian reading of the
4-byte slice at offset `4j` (shorter final slice included); insertion
sets, and query tests, bit `index mod 8` of cell
`(index div 8) mod capacity` for each derived index.  (On a zero-length
buffer the source raises before any cell access, hence `0 < f.length`.) -/
theorem index_derivation (f v : List Nat) (_hf : 0 < f.length) :
    (specPositions f.length v).length = (v.length + 3) / 4 ∧
      chunkIndexes v = (List.range ((v.length + 3) / 4)).map
        (fun j => fromLittleEndian ((v.drop (4 * j)).take 4)) ∧
      queryBytes f v = (specPositions f.length v).all
        (fun p => (f.getD p.1 0 >>> p.2) % 2 == 1) ∧
      insertBytes f v = (specPositions f.length v).foldl
        (fun g p => g.set p.1 (g.getD p.1 0 ||| 2 ^ p.2)) f := by
  refine ⟨by rw [specPositions, List.length_map, List.length_range],
    chunkIndexes_eq_spec v, ?_, ?_⟩
  · rw [queryBytes, chunkIndexes_eq_spec, specPositions, all_map_general, all_map_general]
    rfl
  · rw [insertBytes, chunkIndexes_eq_spec,
      foldl_setBitAt_fixed f.length _ f rfl, specPositions, List.foldl_map, List.foldl_map]

/-- Witness for C7, at the 1-cell filter `[0]` and the 5-byte value
`[1, 2, 3, 4, 5]` (two chunks: one full, one short). -/
theorem index_derivation_witness :
    (specPositions ([0] : List Nat).length [1, 2, 3, 4, 5]).length =
        (([1, 2, 3, 4, 5] : List Nat).length + 3) / 4 ∧
      chunkIndexes [1, 2, 3, 4, 5] =
        (List.range ((([1, 2, 3, 4, 5] : List Nat).length + 3) / 4)).map
          (fun j => fromLittleEndian ((([1, 2, 3, 4, 5] : List Nat).drop (4 * j)).take 4)) ∧
      queryBytes [0] [1, 2, 3, 4, 5] = (specPositions ([0] : List Nat).length [1, 2, 3, 4, 5]).all
        (fun p => (([0] : List Nat).getD p.1 0 >>> p.2) % 2 == 1) ∧
      insertBytes [0] [1, 2, 3, 4, 5] =
        (specPositions ([0] : List Nat).length [1, 2, 3, 4, 5]).foldl
          (fun g p => g.set p.1 (g.getD p.1 0 ||| 2 ^ p.2)) [0] :=
  index_derivation [0] [1, 2, 3, 4, 5] (by decide)

theorem d6_c6 : ∀ s, s < 64 → d6 (c6 s) = s := by decide

theorem c6_ne_61 : ∀ s, s < 64 → c6 s ≠ 61 := by decide

theorem b64_roundtrip (bs : List Nat) :
    (∀ x ∈ bs, x < 256) → b64decode (b64encode bs) = bs := by
  induction bs using b64encode.induct with
  | case1 => intro _; rfl
  | case2 a b c rest ih =>
    intro h
    have ha : a < 256 := h a (by simp)
    have hb : b < 256 := h b (by simp)
    have hc : c < 256 := h c (by simp)
    rw [b64encode, b64decode, if_neg (c6_ne_61 _ (by omega)), if_neg (c6_ne_61 _ (by omega)),
      d6_c6 _ (by omega), d6_c6 _ (by omega), d6_c6 _ (by omega), d6_c6 _ (by omega)]
    rw [show a / 4 * 4 + (a % 4 * 16 + b / 16) / 16 = a from by omega,
      show (a % 4 * 16 + b / 16) % 16 * 16 + (b % 16 * 4 + c / 64) / 4 = b from by omega,
      show (b % 16 * 4 + c / 64) % 4 * 64 + c % 64 = c from by omega,
      ih (fun x hx => h x (by simp [hx]))]
  | case3 a =>
    intro h
    have ha : a < 256 := h a (by simp)
    rw [b64encode, b64decode, if_pos rfl, d6_c6 _ (by omega), d6_c6 _ (by omega),
      show a / 4 * 4 + a % 4 * 16 / 16 = a from by omega]
  | case4 a b =>
    intro h
    have ha : a < 256 := h a (by simp)
    have hb : b < 256 := h b (by simp)
    rw [b64encode, b64decode, if_neg (c6_ne_61 _ (by omega)), if_pos rfl,
      d6_c6 _ (by omega), d6_c6 _ (by omega), d6_c6 _ (by omega),
      show a / 4 * 4 + (a % 4 * 16 + b / 16) / 16 = a from by omega,
      show (a % 4 * 16 + b / 16) % 16 * 16 + b % 16 * 4 / 4 = b from by omega]

/-- C9: serialization round-trip — for every filter `f` (cells are
bytes, i.e. `< 256`), `from_base64 (to_base64 f)` has cell contents and
length identical to `f`.  The all-zero and all-ones buffers are
particular instances of the universally quantified statement. -/
theorem serialization_roundtrip (f : List Nat) (h : ∀ x ∈ f, x < 256) :
    from_base64 (to_base64 f) = f ∧ (from_base64 (to_base64 f)).length = f.length := by
  have hrt : from_base64 (to_base64 f) = f := b64_roundtrip f h
  exact ⟨hrt, by rw [hrt]⟩

/-- Witness for C9, at the filter `[0, 255, 7]` (mixing a zero cell, an
all-ones cell, and a 2-character-group remainder is exercised by length
3 → 4 encoded characters). -/
theorem serialization_roundtrip_witness :
    from_base64 (to_base64 [0, 255, 7]) = [0, 255, 7] ∧
      (from_base64 (to_base64 [0, 255, 7])).length = ([0, 255, 7] : List Nat).length :=
  serialization_roundtrip [0, 255, 7] (by decide)

end Blooms
